import Mathlib

/-!
Shallow embedding of the neural-network package (nn.go and its math helper
file) over the real numbers.  Matrices are modelled as a pair of dimensions
together with a total entry function; the gonum wrappers (dot, mul, fun, scl,
add, sub, transpose) are translated one by one, taking the result dimensions
from the operands exactly as the Go wrappers do.  Go panics (invalid data
sizes, index-out-of-range) are modelled with Except or Option results.
-/

noncomputable section

namespace NN

/-- A dense matrix: dimensions plus a total entry function.  Entries outside
the declared bounds are junk and are never relied on; matrix statements are
made about in-range entries. -/
structure Mat where
  rows : ℕ
  cols : ℕ
  entry : ℕ → ℕ → ℝ

/-- Go mat.NewDense(r, c, data) with row-major data (out-of-range reads give
zero; the Go constructor panics when the length disagrees, and every call in
the package passes a list of exactly r*c entries). -/
def matOfList (r c : ℕ) (data : List ℝ) : Mat :=
  ⟨r, c, fun i j => data.getD (i * c + j) 0⟩

/-- Go mat.NewDense(r, c, nil): the all-zero matrix. -/
def matZero (r c : ℕ) : Mat :=
  ⟨r, c, fun _ _ => 0⟩

/-- Go wrapper dot: matrix product, result dimensions (m.rows, n.cols),
summing over m's columns (gonum panics unless m.cols = n.rows; all call
sites in the package are dimension-correct). -/
def dot (m n : Mat) : Mat :=
  ⟨m.rows, n.cols, fun i j => ∑ k in Finset.range m.cols, m.entry i k * n.entry k j⟩

/-- Go wrapper mul: elementwise (Hadamard) product, result dimensions taken
as (m.rows, n.cols) exactly as the Go wrapper reads them. -/
def mul (m n : Mat) : Mat :=
  ⟨m.rows, n.cols, fun i j => m.entry i j * n.entry i j⟩

/-- Go wrapper fun (fn here since fun is a Lean keyword): elementwise
application.  The Go callback also receives the indices, but both callbacks
used in the package (sigmoid, dSigmoid) ignore them. -/
def fn (f : ℝ → ℝ) (m : Mat) : Mat :=
  ⟨m.rows, m.cols, fun i j => f (m.entry i j)⟩

/-- Go wrapper scl: scalar multiple. -/
def scl (f : ℝ) (m : Mat) : Mat :=
  ⟨m.rows, m.cols, fun i j => f * m.entry i j⟩

/-- Go wrapper add: elementwise sum, result dimensions from m. -/
def add (m n : Mat) : Mat :=
  ⟨m.rows, m.cols, fun i j => m.entry i j + n.entry i j⟩

/-- Go wrapper sub: elementwise difference, result dimensions from m. -/
def sub (m n : Mat) : Mat :=
  ⟨m.rows, m.cols, fun i j => m.entry i j - n.entry i j⟩

/-- Go Matrix.T(): transpose. -/
def transpose (m : Mat) : Mat :=
  ⟨m.cols, m.rows, fun i j => m.entry j i⟩

/-- Go sigmoid: the activation function 1/(1+exp(-v)). -/
def sigmoid (v : ℝ) : ℝ :=
  1 / (1 + Real.exp (-v))

/-- Go dSigmoid: derivative of the activation function. -/
def dSigmoid (v : ℝ) : ℝ :=
  sigmoid v * (1 - sigmoid v)

/-- Go lerp: maps a number across a range. -/
def lerp (x li ui lo uo : ℝ) : ℝ :=
  ((x - li) / (ui - li)) * (uo - lo) + lo

/-- Go randomArray(size, u, l): the pseudo-random generator is modelled as an
arbitrary stream of draws (Go rand.Float64 yields values in the half-open
interval from 0 inclusive to 1 exclusive); each draw is mapped across the
requested range with lerp. -/
def randomArray (size : ℕ) (u l : ℝ) (draws : ℕ → ℝ) : List ℝ :=
  (List.range size).map fun k => lerp (draws k) 0 1 u l

/-- Go totalCost: sum of squared differences.  The Go function panics when
the lengths differ; every reachable call passes equal-length lists. -/
def totalCost (got expected : List ℝ) : ℝ :=
  ∑ i in Finset.range got.length, (got.getD i 0 - expected.getD i 0) ^ 2

/-- Go layer struct. -/
structure Layer where
  weights : Mat
  biases : Mat

/-- Go newLayer: random initialisation draws weights and biases from two
fresh streams (the Go code reseeds the global generator per randomArray
call); otherwise both matrices are zero.  Note the Go call passes -1 as
parameter u and 1 as parameter l of randomArray. -/
def newLayer (layerSize inputSize : ℕ) (random : Bool)
    (wDraws bDraws : ℕ → ℝ) : Layer :=
  if random then
    ⟨matOfList layerSize inputSize (randomArray (layerSize * inputSize) (-1) 1 wDraws),
     matOfList layerSize 1 (randomArray layerSize (-1) 1 bDraws)⟩
  else
    ⟨matZero layerSize inputSize, matZero layerSize 1⟩

/-- Go Network struct.  The Go field h always equals the length of the layer
slice (it is set to exactly that at every construction site), so it is
derived here rather than stored. -/
structure Network where
  i : ℕ
  o : ℕ
  hidden : List ℕ
  layers : List Layer
  learnRate : ℝ

/-- Go n.h, the number of layers. -/
def Network.h (n : Network) : ℕ :=
  n.layers.length

/-- The one error value of the package, errInvalidDataSize (Go panics with
it; the panic is modelled as an Except error result). -/
inductive Err
  | invalidDataSize
deriving DecidableEq

/-- Sequentially evaluate an index-dependent optional value over a list of
indices, failing as soon as one fails (helper for the construction and load
loops, whose Go bodies panic or return an error mid-loop). -/
def gatherSome {α : Type} (g : ℕ → Option α) : List ℕ → Option (List α)
  | [] => some []
  | i :: rest => do
      let x ← g i
      let xs ← gatherSome g rest
      pure (x :: xs)

/-- Body of the loop in Go NewNetwork for one index i: layer 0 reads
hidden[0] (an index-out-of-range panic, hence none, when the hidden list is
empty), the final layer pairs the output size with hidden[i-1], and interior
layers pair hidden[i] with hidden[i-1].  The Go code tests i == 0 before
i == len(hidden), exactly as here. -/
def mkLayerAt (inputs outputs : ℕ) (hidden : List ℕ) (random : Bool)
    (rng : ℕ → (ℕ → ℝ) × (ℕ → ℝ)) (i : ℕ) : Option Layer :=
  if i = 0 then
    (hidden.get? 0).map fun h0 => newLayer h0 inputs random (rng i).1 (rng i).2
  else if i = hidden.length then
    (hidden.get? (i - 1)).map fun hp => newLayer outputs hp random (rng i).1 (rng i).2
  else do
    let hi ← hidden.get? i
    let hp ← hidden.get? (i - 1)
    pure (newLayer hi hp random (rng i).1 (rng i).2)

/-- Go NewNetwork: builds len(hidden)+1 layers by the loop above.  The rng
argument supplies the random draw streams per layer index (unused when
random is false).  A none result models the Go panic. -/
def NewNetwork (inputs outputs : ℕ) (hidden : List ℕ) (learn : ℝ)
    (random : Bool) (rng : ℕ → (ℕ → ℝ) × (ℕ → ℝ)) : Option Network :=
  match gatherSome (mkLayerAt inputs outputs hidden random rng)
      (List.range (hidden.length + 1)) with
  | none => none
  | some ls => some ⟨inputs, outputs, hidden, ls, learn⟩

/-- The forward loop of Go Calc: activation = sigmoid(W*prev + b), layer by
layer in index order. -/
def calcLoop : List Layer → Mat → Mat
  | [], a => a
  | L :: rest, a => calcLoop rest (fn sigmoid (add (dot L.weights a) L.biases))

/-- Go Calc: length check, forward loop, then the first column of the final
activation is read out (the Go code reads activation.Dims() rows). -/
def Calc (n : Network) (data : List ℝ) : Except Err (List ℝ) :=
  if data.length ≠ n.i then .error .invalidDataSize
  else
    let acts := calcLoop n.layers (matOfList n.i 1 data)
    .ok ((List.range acts.rows).map fun k => acts.entry k 0)

/-- The forward pass of Go backpropagate, caching for every layer the layer
itself, its pre-activation z and its activation a. -/
def forwardTrace : List Layer → Mat → List (Layer × Mat × Mat)
  | [], _ => []
  | L :: rest, aPrev =>
      let z := add (dot L.weights aPrev) L.biases
      let a := fn sigmoid z
      (L, z, a) :: forwardTrace rest a

/-- The backward loop of Go backpropagate, translated to recursion on the
leading layer.  For the trace of layers i..h-1 with aPrev the activation
feeding layer i, it returns the updated layers i..h-1 together with the
propagated error dot(transpose(updated weights of layer i), delta_i), which
the Go loop assigns to layerErrors at the start of iteration i-1: the Go
iteration i-1 reads n.layers[i].weights after iteration i overwrote them.
For the last layer delta is sub(expected, a); the base case's second
component is never read. -/
def backLoop (lr : ℝ) (expected : Mat) : Mat → List (Layer × Mat × Mat) → List Layer × Mat
  | _, [] => ([], expected)
  | aPrev, (L, z, a) :: rest =>
      let p := backLoop lr expected a rest
      let delta := if rest.isEmpty then sub expected a else p.2
      let g := mul delta (fn dSigmoid z)
      let L' : Layer :=
        ⟨add L.weights (scl lr (dot g (transpose aPrev))),
         add L.biases (scl (2 * lr) g)⟩
      (L' :: p.1, dot (transpose L'.weights) delta)

/-- The per-layer error terms used by backLoop, in layer order: the last
layer's is sub(expected, a_last), and each earlier layer's is the propagated
error returned by backLoop on the later layers. -/
def bpDeltas (lr : ℝ) (expected : Mat) : List (Layer × Mat × Mat) → List Mat
  | [] => []
  | (_, _, a) :: rest =>
      (if rest.isEmpty then sub expected a else (backLoop lr expected a rest).2)
        :: bpDeltas lr expected rest

/-- Go backpropagate: length checks, forward pass, then the backward update
loop.  The Except error models the Go panic with errInvalidDataSize. -/
def backpropagate (n : Network) (inputData expectedData : List ℝ) : Except Err Network :=
  if inputData.length ≠ n.i ∨ expectedData.length ≠ n.o then .error .invalidDataSize
  else
    let input := matOfList n.i 1 inputData
    let expected := matOfList n.o 1 expectedData
    let trace := forwardTrace n.layers input
    .ok { n with layers := (backLoop n.learnRate expected input trace).1 }

/-- The inner loop of Go Train over one epoch: backpropagate on each example
in order.  The per-example cost recomputation in Go feeds progress printing
only and changes no state, so it is not part of the returned value. -/
def trainPairs (n : Network) : List (List ℝ × List ℝ) → Except Err Network
  | [] => .ok n
  | (x, y) :: rest => do
      let n' ← backpropagate n x y
      trainPairs n' rest

/-- The epoch loop of Go Train. -/
def trainEpochs (pairs : List (List ℝ × List ℝ)) : Network → ℕ → Except Err Network
  | n, 0 => .ok n
  | n, e + 1 => do
      let n' ← trainPairs n pairs
      trainEpochs pairs n' e

/-- Go Train: the length check happens before any update; the example lists
are then walked in index order (zipping is equivalent given equal lengths). -/
def Train (n : Network) (inputs expected : List (List ℝ)) (epochs : ℕ) :
    Except Err Network :=
  if inputs.length ≠ expected.length then .error .invalidDataSize
  else trainEpochs (inputs.zip expected) n epochs

/-- One layer of Go Perturb: uniform noise across (-strength, strength) is
added to every weight and bias entry (again via two fresh draw streams). -/
def perturbLayer (strength : ℝ) (wD bD : ℕ → ℝ) (L : Layer) : Layer :=
  ⟨add L.weights (matOfList L.weights.rows L.weights.cols
      (randomArray (L.weights.rows * L.weights.cols) (-1 * strength) (1 * strength) wD)),
   add L.biases (matOfList L.biases.rows L.biases.cols
      (randomArray (L.biases.rows * L.biases.cols) (-1 * strength) (1 * strength) bD))⟩

/-- Go Perturb over all layers. -/
def Perturb (n : Network) (strength : ℝ) (rng : ℕ → (ℕ → ℝ) × (ℕ → ℝ)) : Network :=
  { n with layers := n.layers.enum.map fun p => perturbLayer strength (rng p.1).1 (rng p.1).2 p.2 }

/-- Go Copy: a new Network value with fresh slices holding the same field
values.  The layer structs are copied by value; the matrices they reference
are shared, but no operation of the package ever writes into an existing
matrix (every update allocates a fresh result and overwrites the field), so
the copy is observationally independent and the value-level translation is
faithful. -/
def Network.Copy (n : Network) : Network :=
  { i := n.i, o := n.o, hidden := n.hidden, layers := n.layers, learnRate := n.learnRate }

/-!  Persistence.  The zip archive written by Save holds the entry meta.json
plus, per layer index i, the entries named with the decimal of i followed by
w.bin and b.bin.  Those Go strings embed injectively into the inductive
EntryName below (decimal rendering of naturals is injective), which spares
the development string arithmetic.  A blob entry models the result of gonum
Dense.MarshalBinary, which losslessly records the dimensions and every
double-precision entry of the matrix, and meta models the JSON encoding of
NetworkOptions, which Go round-trips losslessly for this record type. -/

/-- Names of archive entries: meta.json, iw.bin, ib.bin. -/
inductive EntryName
  | meta
  | w (i : ℕ)
  | b (i : ℕ)
deriving DecidableEq

/-- Go NetworkOptions, the JSON metadata record. -/
structure NetworkOptions where
  I : ℕ
  O : ℕ
  H : List ℕ
  Learn : ℝ
  WPaths : List EntryName
  BPaths : List EntryName

/-- An archive entry: either the metadata record or a marshalled matrix. -/
inductive Entry
  | meta (opts : NetworkOptions)
  | blob (m : Mat)

/-- Go json.Unmarshal of the metadata bytes into NetworkOptions (fails on a
non-metadata payload). -/
def Entry.asMeta : Entry → Option NetworkOptions
  | .meta o => some o
  | .blob _ => none

/-- Go Dense.Reset followed by UnmarshalBinaryFrom: after a Reset the
receiver is empty, so the unmarshal accepts whatever dimensions the blob
carries, replacing the matrix wholesale (no check against the prior
dimensions).  Fails on a non-blob payload. -/
def Entry.asBlob : Entry → Option Mat
  | .meta _ => none
  | .blob m => some m

/-- A zip archive: named entries in write order. -/
def Archive : Type := List (EntryName × Entry)

/-- Go zipFile.Open(name): the first entry with the given name. -/
def archGet (a : Archive) (name : EntryName) : Option Entry :=
  (List.find? (fun p => p.1 = name) a).map (fun p => p.2)

/-- The NetworkOptions record Go Save marshals: blob paths iw.bin and ib.bin
for each layer index i below n.h. -/
def mkOpts (n : Network) : NetworkOptions :=
  ⟨n.i, n.o, n.hidden, n.learnRate,
   (List.range n.h).map EntryName.w, (List.range n.h).map EntryName.b⟩

/-- The per-layer blob entries Go Save writes, in order: for each layer, its
weight blob then its bias blob. -/
def saveBlobs : List Layer → ℕ → Archive
  | [], _ => []
  | L :: rest, i =>
      (EntryName.w i, Entry.blob L.weights) ::
      (EntryName.b i, Entry.blob L.biases) :: saveBlobs rest (i + 1)

/-- Go Save: meta.json first, then the weight and bias blobs of each layer.
File-system errors are environmental and outside the model; the archive
value is what reaches the disk. -/
def Save (n : Network) : Archive :=
  (EntryName.meta, Entry.meta (mkOpts n)) :: saveBlobs n.layers 0

/-- A dummy draw-stream family for the zero-initialised NewNetwork call
inside Load (random is false there, so the streams are never read). -/
def rng0 : ℕ → (ℕ → ℝ) × (ℕ → ℝ) :=
  fun _ => (fun _ => 0, fun _ => 0)

/-- Body of the Go Load loop for layer index i: open the weight path listed
in the metadata, unmarshal it, then the bias path likewise.  A missing
path-list entry models the Go index-out-of-range panic; a missing archive
entry models the zip open error. -/
def loadLayerAt (a : Archive) (opts : NetworkOptions) (i : ℕ) : Option Layer := do
  let wname ← opts.WPaths.get? i
  let we ← archGet a wname
  let wm ← we.asBlob
  let bname ← opts.BPaths.get? i
  let be ← archGet a bname
  let bm ← be.asBlob
  pure ⟨wm, bm⟩

/-- Go Load: read and decode meta.json, rebuild a zero network of the stored
topology with NewNetwork, then overwrite every layer's matrices from the
blobs, looping i over the n.h layer indices. -/
def Load (a : Archive) : Option Network := do
  let e ← archGet a EntryName.meta
  let opts ← e.asMeta
  let n ← NewNetwork opts.I opts.O opts.H opts.Learn false rng0
  let ls ← gatherSome (loadLayerAt a opts) (List.range n.h)
  pure { n with layers := ls }

/-!  The topology invariant of the spec: the boundary sizes are the input
size, the hidden sizes in order, then the output size, and layer k maps
boundary k to boundary k+1 with a matching one-column bias. -/

/-- Layers ls realise the boundary chain inp :: sizes: the list of layers
and the list of their output sizes have equal length, and each layer's
weight matrix is sized (out, in) with an (out, 1) bias. -/
def LayersMatch : ℕ → List ℕ → List Layer → Prop
  | _, [], [] => True
  | inp, s :: ss, L :: ls =>
      L.weights.rows = s ∧ L.weights.cols = inp ∧
      L.biases.rows = s ∧ L.biases.cols = 1 ∧ LayersMatch s ss ls
  | _, _, _ => False

/-- The Network topology invariant of the spec (section 3). -/
def Network.Invariant (n : Network) : Prop :=
  LayersMatch n.i (n.hidden ++ [n.o]) n.layers

/-- The concrete scenario network of the spec: inputSize 2, outputSize 1,
one hidden layer of 2, learning rate 1/10, zero-initialised. -/
def netC3 : Network :=
  ⟨2, 1, [2], [⟨matZero 2 2, matZero 2 1⟩, ⟨matZero 1 2, matZero 1 1⟩], 1 / 10⟩

/-!  Facts about the activation function. -/

theorem sigmoid_pos (x : ℝ) : 0 < sigmoid x := by
  have h := Real.exp_pos (-x)
  unfold sigmoid
  positivity

theorem sigmoid_lt_one (x : ℝ) : sigmoid x < 1 := by
  have h := Real.exp_pos (-x)
  rw [sigmoid, div_lt_one (by linarith)]
  linarith

theorem sigmoid_zero : sigmoid 0 = 1 / 2 := by
  rw [sigmoid]
  norm_num [Real.exp_zero]

theorem half_lt_sigmoid {x : ℝ} (hx : 0 < x) : 1 / 2 < sigmoid x := by
  have h := Real.exp_pos (-x)
  have hlt : Real.exp (-x) < 1 := by
    rw [← Real.exp_zero]
    exact Real.exp_lt_exp.mpr (by linarith)
  rw [sigmoid, lt_div_iff₀ (by linarith)]
  linarith

theorem dSigmoid_zero : dSigmoid 0 = 1 / 4 := by
  rw [dSigmoid, sigmoid_zero]
  norm_num

/-- C7: Copy produces a network observationally identical to and independent
of the source: its Calc output agrees with the source's on every input.  In
this embedding every operation of the package is a pure value transformer
(each Go update allocates a fresh matrix and overwrites the layer field, so
no in-place write is ever performed on shared storage), hence mutating the
copy with backpropagate or Perturb cannot change the source value and vice
versa; the copy itself is value-identical to the source. -/
theorem copy_observational_independence (n : Network) :
    Network.Copy n = n ∧ ∀ data : List ℝ, Calc (Network.Copy n) data = Calc n data := by
  refine ⟨rfl, fun _ => rfl⟩

/-- C8 (code behaviour at the failing input): NewNetwork with an empty
hidden-size list reads hidden[0] in the first loop iteration and panics with
an index-out-of-range error, for every input size, output size, learning
rate and randomize flag; no single-layer network is produced. -/
theorem newNetwork_empty_hidden_panics (inputs outputs : ℕ) (learn : ℝ)
    (random : Bool) (rng : ℕ → (ℕ → ℝ) × (ℕ → ℝ)) :
    NewNetwork inputs outputs [] learn random rng = none := by
  simp [NewNetwork, gatherSome, mkLayerAt, List.range_succ]

/-- C9: Calc with an input of the wrong length and Train with example lists
of different lengths both fail with the invalid-data-size error, before any
layer is touched (the checks are the first statements of the Go functions,
and the error result carries no network). -/
theorem wrong_size_inputs_rejected :
    (∀ (n : Network) (data : List ℝ), data.length ≠ n.i →
      Calc n data = .error .invalidDataSize) ∧
    (∀ (n : Network) (ins exps : List (List ℝ)) (epochs : ℕ),
      ins.length ≠ exps.length →
      Train n ins exps epochs = .error .invalidDataSize) := by
  constructor
  · intro n data h
    simp [Calc, h]
  · intro n ins exps epochs h
    simp [Train, h]

/-- Witness for C9 at concrete inputs. -/
theorem wrong_size_inputs_rejected_witness :
    Calc netC3 [1] = .error .invalidDataSize ∧
    Train netC3 [[1, 0]] [] 3 = .error .invalidDataSize :=
  ⟨wrong_size_inputs_rejected.1 netC3 [1] (by decide),
   wrong_size_inputs_rejected.2 netC3 [[1, 0]] [] 3 (by decide)⟩

/-- Reading the list built by randomArray within bounds gives the lerp of
the corresponding draw. -/
theorem randomArray_getD (size : ℕ) (u l : ℝ) (d : ℕ → ℝ) (k : ℕ) (hk : k < size) :
    (randomArray size u l d).getD k 0 = lerp (d k) 0 1 u l := by
  rw [randomArray, List.getD_eq_getElem?_getD]
  simp [List.getElem?_map, List.getElem?_range hk]

/-- The map used by newLayer sends a draw in the unit half-open interval to
the half-open interval from -1 inclusive to 1 exclusive. -/
theorem lerp_unit (x : ℝ) (h0 : 0 ≤ x) (h1 : x < 1) :
    -1 ≤ lerp x 0 1 (-1) 1 ∧ lerp x 0 1 (-1) 1 < 1 := by
  have hx : lerp x 0 1 (-1) 1 = 2 * x - 1 := by
    unfold lerp
    norm_num
    ring
  rw [hx]
  constructor <;> linarith

/-- Helper index bound: a row-major index is within the data length. -/
theorem rowMajor_lt {r c rows cols : ℕ} (hr : r < rows) (hc : c < cols) :
    r * cols + c < rows * cols := by
  calc r * cols + c < r * cols + cols := by omega
    _ = (r + 1) * cols := by ring
    _ ≤ rows * cols := Nat.mul_le_mul_right cols hr

/-- C10 (amended): with the pseudo-random generator modelled as arbitrary
streams of draws in the half-open unit interval (Go rand.Float64), every
weight and bias entry produced by newLayer with randomize true lies in the
half-open interval from -1 inclusive to 1 exclusive (the draw 0 is mapped
exactly to -1, so the open interval of the claim is not correct). -/
theorem newLayer_random_range (layerSz inSz : ℕ) (wD bD : ℕ → ℝ)
    (hw : ∀ k, 0 ≤ wD k ∧ wD k < 1) (hb : ∀ k, 0 ≤ bD k ∧ bD k < 1) :
    (∀ r c, r < layerSz → c < inSz →
      -1 ≤ (newLayer layerSz inSz true wD bD).weights.entry r c ∧
      (newLayer layerSz inSz true wD bD).weights.entry r c < 1) ∧
    (∀ r, r < layerSz →
      -1 ≤ (newLayer layerSz inSz true wD bD).biases.entry r 0 ∧
      (newLayer layerSz inSz true wD bD).biases.entry r 0 < 1) := by
  constructor
  · intro r c hr hc
    have hidx : r * inSz + c < layerSz * inSz := rowMajor_lt hr hc
    have : (newLayer layerSz inSz true wD bD).weights.entry r c =
        lerp (wD (r * inSz + c)) 0 1 (-1) 1 := by
      simp only [newLayer, if_true, matOfList]
      exact randomArray_getD _ _ _ _ _ hidx
    rw [this]
    exact lerp_unit _ (hw _).1 (hw _).2
  · intro r hr
    have hidx : r * 1 + 0 < layerSz := by omega
    have : (newLayer layerSz inSz true wD bD).biases.entry r 0 =
        lerp (bD (r * 1 + 0)) 0 1 (-1) 1 := by
      simp only [newLayer, if_true, matOfList]
      exact randomArray_getD _ _ _ _ _ (by omega)
    rw [this]
    exact lerp_unit _ (hb _).1 (hb _).2

/-- Witness for C10's amended theorem at a concrete layer and streams. -/
theorem newLayer_random_range_witness :
    (∀ r c, r < 1 → c < 1 →
      -1 ≤ (newLayer 1 1 true (fun _ => (1:ℝ) / 2) (fun _ => (1:ℝ) / 2)).weights.entry r c ∧
      (newLayer 1 1 true (fun _ => (1:ℝ) / 2) (fun _ => (1:ℝ) / 2)).weights.entry r c < 1) ∧
    (∀ r, r < 1 →
      -1 ≤ (newLayer 1 1 true (fun _ => (1:ℝ) / 2) (fun _ => (1:ℝ) / 2)).biases.entry r 0 ∧
      (newLayer 1 1 true (fun _ => (1:ℝ) / 2) (fun _ => (1:ℝ) / 2)).biases.entry r 0 < 1) :=
  newLayer_random_range 1 1 _ _ (fun _ => by norm_num) (fun _ => by norm_num)

/-- The layer list and the boundary-size list of a matching chain have equal
lengths. -/
theorem layersMatch_length {inp : ℕ} {sizes : List ℕ} {ls : List Layer}
    (h : LayersMatch inp sizes ls) : ls.length = sizes.length := by
  induction ls generalizing inp sizes with
  | nil =>
    cases sizes with
    | nil => rfl
    | cons s ss => exact False.elim h
  | cons L rest ih =>
    cases sizes with
    | nil => exact False.elim h
    | cons s ss =>
      obtain ⟨-, -, -, -, h5⟩ := h
      simp [ih h5]

/-- A nonempty forward loop ends with an application of the activation
function: the result is fn sigmoid of some matrix. -/
theorem calcLoop_fn : ∀ (ls : List Layer) (a0 : Mat), ls ≠ [] →
    ∃ m, calcLoop ls a0 = fn sigmoid m := by
  intro ls
  induction ls with
  | nil => exact fun a0 h => absurd rfl h
  | cons L rest ih =>
    intro a0 _
    cases rest with
    | nil => exact ⟨_, rfl⟩
    | cons L2 r2 => exact ih _ (by simp)

/-- Row count of the forward loop under the topology invariant: the final
activation has as many rows as the last boundary size. -/
theorem calcLoop_rows : ∀ (ls : List Layer) (sizes : List ℕ) (inp : ℕ) (a0 : Mat),
    LayersMatch inp sizes ls → ls ≠ [] →
    ∃ last, sizes.getLast? = some last ∧ (calcLoop ls a0).rows = last := by
  intro ls
  induction ls with
  | nil => exact fun sizes inp a0 _ h => absurd rfl h
  | cons L rest ih =>
    intro sizes inp a0 hm _
    cases sizes with
    | nil => exact False.elim hm
    | cons s ss =>
      obtain ⟨h1, h2, h3, h4, h5⟩ := hm
      cases rest with
      | nil =>
        cases ss with
        | nil => exact ⟨s, rfl, by simp [calcLoop, fn, add, dot, h1]⟩
        | cons s2 ss2 => exact False.elim h5
      | cons L2 r2 =>
        cases ss with
        | nil => exact False.elim h5
        | cons s2 ss2 =>
          obtain ⟨last, hl, hr⟩ :=
            ih (s2 :: ss2) s (fn sigmoid (add (dot L.weights a0) L.biases)) h5 (by simp)
          exact ⟨last, by rw [List.getLast?_cons_cons]; exact hl, hr⟩

/-- C2: under the topology invariant, Calc on an input of the declared
input size returns exactly outputSize entries, each strictly between 0 and 1
(the forward pass is the layerwise sigmoid recurrence by definition of
calcLoop, and Calc is a pure function of the network value, so no mutation
occurs). -/
theorem calc_output_spec (n : Network) (data : List ℝ)
    (hinv : n.Invariant) (hlen : data.length = n.i) :
    ∃ out, Calc n data = .ok out ∧ out.length = n.o ∧ ∀ x ∈ out, 0 < x ∧ x < 1 := by
  have hlay : n.layers ≠ [] := by
    have hlen' := layersMatch_length hinv
    intro he
    rw [he] at hlen'
    simp at hlen'
  obtain ⟨last, hlast, hrows⟩ :=
    calcLoop_rows n.layers (n.hidden ++ [n.o]) n.i (matOfList n.i 1 data) hinv hlay
  have hlast' : last = n.o := by
    rw [List.getLast?_concat] at hlast
    exact (Option.some.injEq _ _ ▸ hlast).symm
  obtain ⟨m, hm⟩ := calcLoop_fn n.layers (matOfList n.i 1 data) hlay
  refine ⟨(List.range (calcLoop n.layers (matOfList n.i 1 data)).rows).map
      (fun k => (calcLoop n.layers (matOfList n.i 1 data)).entry k 0), ?_, ?_, ?_⟩
  · simp [Calc, hlen]
  · simp [hrows, hlast']
  · intro x hx
    obtain ⟨k, -, rfl⟩ := List.mem_map.mp hx
    rw [hm]
    exact ⟨sigmoid_pos _, sigmoid_lt_one _⟩

/-- The concrete scenario network satisfies the topology invariant. -/
theorem netC3_invariant : netC3.Invariant :=
  ⟨rfl, rfl, rfl, rfl, rfl, rfl, rfl, rfl, trivial⟩

/-- Witness for C2 at the concrete scenario network. -/
theorem calc_output_spec_witness :
    ∃ out, Calc netC3 [1, 0] = .ok out ∧ out.length = netC3.o ∧
      ∀ x ∈ out, 0 < x ∧ x < 1 :=
  calc_output_spec netC3 [1, 0] netC3_invariant rfl

/-- Counterexample for C10 as frozen: the draw 0 is a legitimate value of Go
rand.Float64, and it produces the weight entry -1, which is not strictly
inside the open interval from -1 to 1. -/
theorem newLayer_random_attains_neg_one :
    (0:ℝ) ∈ Set.Ico (0:ℝ) 1 ∧
    (newLayer 1 1 true (fun _ => 0) (fun _ => 0)).weights.entry 0 0 = -1 ∧
    ¬ (-1 < (newLayer 1 1 true (fun _ => 0) (fun _ => 0)).weights.entry 0 0) := by
  have he : (newLayer 1 1 true (fun _ => (0:ℝ)) (fun _ => 0)).weights.entry 0 0 = -1 := by
    simp [newLayer, matOfList, randomArray, lerp]
  refine ⟨⟨le_refl 0, by norm_num⟩, he, ?_⟩
  rw [he]
  norm_num

/-- Default layer value for list indexing in statements. -/
def dLayer : Layer := ⟨matZero 0 0, matZero 0 0⟩

/-- Default trace element for list indexing in statements. -/
def dTrip : Layer × Mat × Mat := (dLayer, matZero 0 0, matZero 0 0)

/-- The network produced by one backpropagation step of the concrete
scenario. -/
def bpC3 : Network :=
  { netC3 with layers := (backLoop netC3.learnRate (matOfList 1 1 [1]) (matOfList 2 1 [1, 0])
      (forwardTrace netC3.layers (matOfList 2 1 [1, 0]))).1 }

/-- Default matrix value for list indexing in statements. -/
def dMat : Mat := matZero 0 0

/-- The forward trace has one element per layer. -/
theorem forwardTrace_length : ∀ (ls : List Layer) (a0 : Mat),
    (forwardTrace ls a0).length = ls.length := by
  intro ls
  induction ls with
  | nil => intro a0; rfl
  | cons L rest ih => intro a0; simp [forwardTrace, ih]

/-- The forward trace pairs each layer with its own data. -/
theorem forwardTrace_layer : ∀ (ls : List Layer) (a0 : Mat) (k : ℕ), k < ls.length →
    ((forwardTrace ls a0).getD k dTrip).1 = ls.getD k dLayer := by
  intro ls
  induction ls with
  | nil => intro a0 k h; simp at h
  | cons L rest ih =>
    intro a0 k hk
    cases k with
    | zero => rfl
    | succ j =>
      simp only [forwardTrace]
      rw [List.getD_cons_succ, List.getD_cons_succ]
      exact ih _ j (by simpa using hk)

/-- The backward loop returns one updated layer per trace element. -/
theorem backLoop_length (lr : ℝ) (e : Mat) :
    ∀ (t : List (Layer × Mat × Mat)) (aPrev : Mat),
      (backLoop lr e aPrev t).1.length = t.length := by
  intro t
  induction t with
  | nil => intro aPrev; rfl
  | cons x rest ih =>
    intro aPrev
    obtain ⟨L, z, a⟩ := x
    simp [backLoop, ih]

/-- There is one error term per trace element. -/
theorem bpDeltas_length (lr : ℝ) (e : Mat) :
    ∀ (t : List (Layer × Mat × Mat)), (bpDeltas lr e t).length = t.length := by
  intro t
  induction t with
  | nil => rfl
  | cons x rest ih =>
    obtain ⟨L, z, a⟩ := x
    simp [bpDeltas, ih]

/-- Closed form of each updated layer produced by the backward loop: layer k
receives bias increment 2 * lr * hadamard(delta_k, dSigmoid z_k) and weight
increment lr * (hadamard(delta_k, dSigmoid z_k) matmul transpose a_prev),
where a_prev is the incoming activation (the original input for layer 0). -/
theorem backLoop_getD (lr : ℝ) (e : Mat) :
    ∀ (t : List (Layer × Mat × Mat)) (aPrev : Mat) (k : ℕ), k < t.length →
      (backLoop lr e aPrev t).1.getD k dLayer =
        ⟨add ((t.getD k dTrip).1.weights)
           (scl lr (dot (mul ((bpDeltas lr e t).getD k dMat)
               (fn dSigmoid (t.getD k dTrip).2.1))
             (transpose (if k = 0 then aPrev else (t.getD (k - 1) dTrip).2.2)))),
         add ((t.getD k dTrip).1.biases)
           (scl (2 * lr) (mul ((bpDeltas lr e t).getD k dMat)
             (fn dSigmoid (t.getD k dTrip).2.1)))⟩ := by
  intro t
  induction t with
  | nil => intro aPrev k h; simp at h
  | cons x rest ih =>
    intro aPrev k hk
    obtain ⟨L, z, a⟩ := x
    cases k with
    | zero => rfl
    | succ j =>
      have hj : j < rest.length := by simpa using hk
      simp only [backLoop, bpDeltas]
      rw [List.getD_cons_succ, List.getD_cons_succ, List.getD_cons_succ]
      rw [ih a j hj]
      cases j with
      | zero => rfl
      | succ m => rfl

/-- The error term of each non-final layer k is the transpose of the UPDATED
weight matrix of layer k+1 (as returned by the backward loop) applied to
layer k+1's error term. -/
theorem bpDeltas_recurrence (lr : ℝ) (e : Mat) :
    ∀ (t : List (Layer × Mat × Mat)) (aPrev : Mat) (k : ℕ), k + 1 < t.length →
      (bpDeltas lr e t).getD k dMat =
        dot (transpose ((backLoop lr e aPrev t).1.getD (k + 1) dLayer).weights)
          ((bpDeltas lr e t).getD (k + 1) dMat) := by
  intro t
  induction t with
  | nil => intro aPrev k h; simp at h
  | cons x rest ih =>
    intro aPrev k hk
    obtain ⟨L, z, a⟩ := x
    cases k with
    | zero =>
      cases rest with
      | nil => simp at hk
      | cons y rest2 => rfl
    | succ j =>
      have hj : j + 1 < rest.length := by simpa using hk
      simp only [backLoop, bpDeltas]
      rw [List.getD_cons_succ, List.getD_cons_succ, List.getD_cons_succ]
      exact ih a j hj

/-- The last error term is expected minus the final activation. -/
theorem bpDeltas_last (lr : ℝ) (e : Mat) :
    ∀ (t : List (Layer × Mat × Mat)), t ≠ [] →
      (bpDeltas lr e t).getD (t.length - 1) dMat =
        sub e ((t.getD (t.length - 1) dTrip).2.2) := by
  intro t
  induction t with
  | nil => intro h; exact absurd rfl h
  | cons x rest ih =>
    intro _
    obtain ⟨L, z, a⟩ := x
    cases rest with
    | nil => rfl
    | cons y rest2 =>
      have h1 : ((L, z, a) :: y :: rest2).length - 1 = (y :: rest2).length - 1 + 1 := by
        simp
      rw [h1]
      simp only [bpDeltas]
      rw [List.getD_cons_succ, List.getD_cons_succ]
      exact ih (by simp)

/-- Successful backpropagation in closed form (the input-size checks pass). -/
theorem backpropagate_ok (n : Network) (x y : List ℝ)
    (hx : x.length = n.i) (hy : y.length = n.o) :
    backpropagate n x y = .ok { n with layers := (backLoop n.learnRate (matOfList n.o 1 y)
      (matOfList n.i 1 x) (forwardTrace n.layers (matOfList n.i 1 x))).1 } := by
  rw [backpropagate, if_neg (by simp [hx, hy])]

/-- One backpropagation step on the concrete scenario succeeds and produces
bpC3. -/
theorem backpropagate_netC3 : backpropagate netC3 [1, 0] [1] = .ok bpC3 := by
  rw [backpropagate, if_neg (by decide)]
  rfl

/-- C1: for every network and every input/expected pair of the declared
sizes, backpropagate succeeds and performs exactly the updates of the spec:
the output error term is delta = expected - a_last, and layer k's bias
matrix is incremented by learnRate * 2 * hadamard(delta_k, dSigmoid z_k)
while its weight matrix is incremented by learnRate *
matmul(hadamard(delta_k, dSigmoid z_k), transpose a_prev), with the original
input feeding layer 0 (the delta terms of earlier layers are those produced
by the backward loop; their propagation rule is the subject of C4). -/
theorem backpropagate_update_rule (n : Network) (x y : List ℝ)
    (hx : x.length = n.i) (hy : y.length = n.o) (hl : n.layers ≠ []) :
    ∃ n', backpropagate n x y = .ok n' ∧
      n'.layers.length = n.layers.length ∧
      (bpDeltas n.learnRate (matOfList n.o 1 y)
          (forwardTrace n.layers (matOfList n.i 1 x))).getD (n.layers.length - 1) dMat =
        sub (matOfList n.o 1 y)
          (((forwardTrace n.layers (matOfList n.i 1 x)).getD
            (n.layers.length - 1) dTrip).2.2) ∧
      ∀ k, k < n.layers.length →
        n'.layers.getD k dLayer =
          ⟨add ((n.layers.getD k dLayer).weights)
             (scl n.learnRate (dot (mul ((bpDeltas n.learnRate (matOfList n.o 1 y)
                   (forwardTrace n.layers (matOfList n.i 1 x))).getD k dMat)
                 (fn dSigmoid ((forwardTrace n.layers (matOfList n.i 1 x)).getD k dTrip).2.1))
               (transpose (if k = 0 then matOfList n.i 1 x
                 else ((forwardTrace n.layers (matOfList n.i 1 x)).getD (k - 1) dTrip).2.2)))),
           add ((n.layers.getD k dLayer).biases)
             (scl (n.learnRate * 2) (mul ((bpDeltas n.learnRate (matOfList n.o 1 y)
                   (forwardTrace n.layers (matOfList n.i 1 x))).getD k dMat)
               (fn dSigmoid ((forwardTrace n.layers (matOfList n.i 1 x)).getD k dTrip).2.1)))⟩ := by
  have htlen : (forwardTrace n.layers (matOfList n.i 1 x)).length = n.layers.length :=
    forwardTrace_length n.layers (matOfList n.i 1 x)
  refine ⟨_, backpropagate_ok n x y hx hy, ?_, ?_, ?_⟩
  · show (backLoop n.learnRate (matOfList n.o 1 y) (matOfList n.i 1 x)
      (forwardTrace n.layers (matOfList n.i 1 x))).1.length = n.layers.length
    rw [backLoop_length, htlen]
  · have hne : forwardTrace n.layers (matOfList n.i 1 x) ≠ [] := by
      intro h
      rw [h] at htlen
      exact hl (List.length_eq_zero.mp htlen.symm)
    rw [← htlen]
    exact bpDeltas_last n.learnRate (matOfList n.o 1 y) _ hne
  · intro k hk
    have hk' : k < (forwardTrace n.layers (matOfList n.i 1 x)).length := by
      rw [htlen]; exact hk
    show (backLoop n.learnRate (matOfList n.o 1 y) (matOfList n.i 1 x)
        (forwardTrace n.layers (matOfList n.i 1 x))).1.getD k dLayer = _
    rw [backLoop_getD n.learnRate (matOfList n.o 1 y) _ (matOfList n.i 1 x) k hk',
      forwardTrace_layer n.layers (matOfList n.i 1 x) k hk, mul_comm 2 n.learnRate]

/-- Witness for C1 at the concrete scenario. -/
theorem backpropagate_update_rule_witness :
    ∃ n', backpropagate netC3 [1, 0] [1] = .ok n' ∧
      n'.layers.length = netC3.layers.length ∧
      (bpDeltas netC3.learnRate (matOfList netC3.o 1 [1])
          (forwardTrace netC3.layers (matOfList netC3.i 1 [1, 0]))).getD
            (netC3.layers.length - 1) dMat =
        sub (matOfList netC3.o 1 [1])
          (((forwardTrace netC3.layers (matOfList netC3.i 1 [1, 0])).getD
            (netC3.layers.length - 1) dTrip).2.2) ∧
      ∀ k, k < netC3.layers.length →
        n'.layers.getD k dLayer =
          ⟨add ((netC3.layers.getD k dLayer).weights)
             (scl netC3.learnRate (dot (mul ((bpDeltas netC3.learnRate (matOfList netC3.o 1 [1])
                   (forwardTrace netC3.layers (matOfList netC3.i 1 [1, 0]))).getD k dMat)
                 (fn dSigmoid ((forwardTrace netC3.layers
                   (matOfList netC3.i 1 [1, 0])).getD k dTrip).2.1))
               (transpose (if k = 0 then matOfList netC3.i 1 [1, 0]
                 else ((forwardTrace netC3.layers
                   (matOfList netC3.i 1 [1, 0])).getD (k - 1) dTrip).2.2)))),
           add ((netC3.layers.getD k dLayer).biases)
             (scl (netC3.learnRate * 2) (mul ((bpDeltas netC3.learnRate (matOfList netC3.o 1 [1])
                   (forwardTrace netC3.layers (matOfList netC3.i 1 [1, 0]))).getD k dMat)
               (fn dSigmoid ((forwardTrace netC3.layers
                 (matOfList netC3.i 1 [1, 0])).getD k dTrip).2.1)))⟩ :=
  backpropagate_update_rule netC3 [1, 0] [1] rfl rfl (by simp [netC3])

/-- Training the concrete scenario for one epoch on its single example is
exactly one backpropagation step. -/
theorem train_netC3 : Train netC3 [[1, 0]] [[1]] 1 = .ok bpC3 := by
  rw [Train, if_neg (by decide)]
  show trainEpochs [([1, 0], [1])] netC3 1 = .ok bpC3
  rw [show (1:ℕ) = 0 + 1 from rfl, trainEpochs]
  show (do
    let n' ← (do
      let n' ← backpropagate netC3 [1, 0] [1]
      trainPairs n' [])
    trainEpochs [([1, 0], [1])] n' 0) = .ok bpC3
  rw [backpropagate_netC3]
  rfl

/-- Updated last-layer weight entry of the concrete scenario. -/
theorem bpC3_w1_entry : (bpC3.layers.getD 1 dLayer).weights.entry 0 0 = 1 / 160 := by
  simp [bpC3, netC3, forwardTrace, backLoop, dot, mul, add, sub, scl, fn, transpose,
    matZero, matOfList, Finset.sum_range_succ, sigmoid_zero, dSigmoid_zero]
  norm_num

/-- Updated last-layer bias entry of the concrete scenario. -/
theorem bpC3_b1_entry : (bpC3.layers.getD 1 dLayer).biases.entry 0 0 = 1 / 40 := by
  simp [bpC3, netC3, forwardTrace, backLoop, dot, mul, add, sub, scl, fn, transpose,
    matZero, matOfList, Finset.sum_range_succ, sigmoid_zero, dSigmoid_zero]
  norm_num

/-- Updated first-layer weight entry of the concrete scenario: nonzero, even
though the first layer's error term would vanish if the propagation used the
zero weights the last layer had at entry to the call. -/
theorem bpC3_w0_entry : (bpC3.layers.getD 0 dLayer).weights.entry 0 0 = 1 / 12800 := by
  simp [bpC3, netC3, forwardTrace, backLoop, dot, mul, add, sub, scl, fn, transpose,
    matZero, matOfList, Finset.sum_range_succ, sigmoid_zero, dSigmoid_zero]
  norm_num

/-- Updated first-layer bias entry of the concrete scenario. -/
theorem bpC3_b0_entry : (bpC3.layers.getD 0 dLayer).biases.entry 0 0 = 1 / 6400 := by
  simp [bpC3, netC3, forwardTrace, backLoop, dot, mul, add, sub, scl, fn, transpose,
    matZero, matOfList, Finset.sum_range_succ, sigmoid_zero, dSigmoid_zero]
  norm_num

/-- C4: within one backpropagate call, the error term of each non-final
layer k is the transpose of layer k+1's weight matrix AS ALREADY UPDATED by
that same call (the matrix found in the returned network, not the one at
entry) applied to layer k+1's error term; consequently on the
zero-initialised scenario network the first (non-final) layer receives
nonzero weight and bias updates, which would both be zero had the entry
value (the zero matrix) been used for the propagation. -/
theorem backprop_uses_updated_weights (n : Network) (x y : List ℝ)
    (hx : x.length = n.i) (hy : y.length = n.o) :
    (∃ n', backpropagate n x y = .ok n' ∧
      ∀ k, k + 1 < n.layers.length →
        (bpDeltas n.learnRate (matOfList n.o 1 y)
            (forwardTrace n.layers (matOfList n.i 1 x))).getD k dMat =
          dot (transpose ((n'.layers.getD (k + 1) dLayer).weights))
            ((bpDeltas n.learnRate (matOfList n.o 1 y)
              (forwardTrace n.layers (matOfList n.i 1 x))).getD (k + 1) dMat)) ∧
    backpropagate netC3 [1, 0] [1] = .ok bpC3 ∧
    (bpC3.layers.getD 0 dLayer).weights.entry 0 0 ≠ 0 ∧
    (bpC3.layers.getD 0 dLayer).biases.entry 0 0 ≠ 0 := by
  refine ⟨⟨_, backpropagate_ok n x y hx hy, ?_⟩, backpropagate_netC3, ?_, ?_⟩
  · intro k hk
    have hk' : k + 1 < (forwardTrace n.layers (matOfList n.i 1 x)).length := by
      rw [forwardTrace_length]; exact hk
    exact bpDeltas_recurrence n.learnRate (matOfList n.o 1 y) _ (matOfList n.i 1 x) k hk'
  · rw [bpC3_w0_entry]; norm_num
  · rw [bpC3_b0_entry]; norm_num

/-- Witness for C4 at the concrete scenario. -/
theorem backprop_uses_updated_weights_witness :
    (∃ n', backpropagate netC3 [1, 0] [1] = .ok n' ∧
      ∀ k, k + 1 < netC3.layers.length →
        (bpDeltas netC3.learnRate (matOfList netC3.o 1 [1])
            (forwardTrace netC3.layers (matOfList netC3.i 1 [1, 0]))).getD k dMat =
          dot (transpose ((n'.layers.getD (k + 1) dLayer).weights))
            ((bpDeltas netC3.learnRate (matOfList netC3.o 1 [1])
              (forwardTrace netC3.layers (matOfList netC3.i 1 [1, 0]))).getD (k + 1) dMat)) ∧
    backpropagate netC3 [1, 0] [1] = .ok bpC3 ∧
    (bpC3.layers.getD 0 dLayer).weights.entry 0 0 ≠ 0 ∧
    (bpC3.layers.getD 0 dLayer).biases.entry 0 0 ≠ 0 :=
  backprop_uses_updated_weights netC3 [1, 0] [1] rfl rfl

/-- Forward output of the concrete scenario after the one training step. -/
theorem calc_bpC3 : Calc bpC3 [1, 0] = .ok [sigmoid (sigmoid (3 / 12800) / 80 + 1 / 40)] := by
  simp only [Calc, bpC3, netC3, forwardTrace, backLoop, calcLoop, dot, mul, add, sub, scl, fn,
    transpose, matZero, matOfList, Finset.sum_range_succ, Finset.sum_range_zero,
    List.range_succ, List.range_zero, List.map_append, List.map_cons, List.map_nil,
    List.nil_append]
  norm_num [sigmoid_zero, dSigmoid_zero]
  ring_nf

/-- Forward output of the concrete scenario before training. -/
theorem calc_netC3 : Calc netC3 [1, 0] = .ok [1 / 2] := by
  simp [Calc, netC3, calcLoop, dot, mul, add, scl, fn, transpose, matZero, matOfList,
    Finset.sum_range_succ, sigmoid_zero]

/-- C3: on the zero-initialised 2-(2)-1 network with learning rate 1/10,
before training every neuron's activation on the input (1,0) is
sigmoid(0) = 1/2 and the squared error against expected output (1) is 1/4;
after one training epoch on that single example, the weight and bias
matrices of both layers have moved away from zero and the squared error is
strictly below 1/4. -/
theorem zero_net_training_scenario :
    NewNetwork 2 1 [2] (1 / 10) false rng0 = some netC3 ∧
    (∀ r, ((forwardTrace netC3.layers (matOfList 2 1 [1, 0])).getD 0 dTrip).2.2.entry r 0
      = 1 / 2) ∧
    (∀ r, ((forwardTrace netC3.layers (matOfList 2 1 [1, 0])).getD 1 dTrip).2.2.entry r 0
      = 1 / 2) ∧
    Calc netC3 [1, 0] = .ok [1 / 2] ∧
    totalCost [1] [(1:ℝ) / 2] = 1 / 4 ∧
    ∃ n', Train netC3 [[1, 0]] [[1]] 1 = .ok n' ∧
      (n'.layers.getD 0 dLayer).weights.entry 0 0 ≠ 0 ∧
      (n'.layers.getD 0 dLayer).biases.entry 0 0 ≠ 0 ∧
      (n'.layers.getD 1 dLayer).weights.entry 0 0 ≠ 0 ∧
      (n'.layers.getD 1 dLayer).biases.entry 0 0 ≠ 0 ∧
      ∃ out, Calc n' [1, 0] = .ok out ∧ totalCost [1] out < 1 / 4 := by
  refine ⟨rfl, ?_, ?_, calc_netC3, ?_, bpC3, train_netC3, ?_, ?_, ?_, ?_, ?_⟩
  · intro r
    simp [netC3, forwardTrace, dot, mul, add, fn, matZero, matOfList,
      Finset.sum_range_succ, sigmoid_zero]
  · intro r
    simp [netC3, forwardTrace, dot, mul, add, fn, matZero, matOfList,
      Finset.sum_range_succ, sigmoid_zero]
  · simp [totalCost]
    norm_num
  · rw [bpC3_w0_entry]; norm_num
  · rw [bpC3_b0_entry]; norm_num
  · rw [bpC3_w1_entry]; norm_num
  · rw [bpC3_b1_entry]; norm_num
  · refine ⟨_, calc_bpC3, ?_⟩
    have hs : 0 < sigmoid (3 / 12800) := sigmoid_pos _
    have hT : 0 < sigmoid (3 / 12800) / 80 + 1 / 40 := by linarith
    have h1 : 1 / 2 < sigmoid (sigmoid (3 / 12800) / 80 + 1 / 40) := half_lt_sigmoid hT
    have h2 : sigmoid (sigmoid (3 / 12800) / 80 + 1 / 40) < 1 := sigmoid_lt_one _
    have hc : totalCost [1] [sigmoid (sigmoid (3 / 12800) / 80 + 1 / 40)] =
        (1 - sigmoid (sigmoid (3 / 12800) / 80 + 1 / 40)) ^ 2 := by
      simp [totalCost]
    rw [hc]
    nlinarith [mul_pos
      (by linarith : (0:ℝ) < sigmoid (sigmoid (3 / 12800) / 80 + 1 / 40) - 1 / 2)
      (by linarith : (0:ℝ) < 3 / 2 - sigmoid (sigmoid (3 / 12800) / 80 + 1 / 40))]

/-!  Lemmas for the persistence round trip and the load failure modes. -/

/-- Looking up a weight blob in the blob list written from position i0. -/
theorem find?_saveBlobs_w : ∀ (ls : List Layer) (i0 k : ℕ), k < ls.length →
    List.find? (fun p => p.1 = EntryName.w (i0 + k)) (saveBlobs ls i0) =
      some (EntryName.w (i0 + k), Entry.blob ((ls.getD k dLayer).weights)) := by
  intro ls
  induction ls with
  | nil => intro i0 k h; simp at h
  | cons L rest ih =>
    intro i0 k hk
    cases k with
    | zero => simp [saveBlobs]
    | succ j =>
      have hj : j < rest.length := by simpa using hk
      have hne1 : EntryName.w i0 ≠ EntryName.w (i0 + (j + 1)) := by
        simp only [ne_eq, EntryName.w.injEq]
        omega
      have heq : i0 + (j + 1) = (i0 + 1) + j := by omega
      rw [saveBlobs, List.find?_cons_of_neg _ (by simpa using hne1),
        List.find?_cons_of_neg _ (by simp), heq, ih (i0 + 1) j hj,
        List.getD_cons_succ]

/-- Looking up a bias blob in the blob list written from position i0. -/
theorem find?_saveBlobs_b : ∀ (ls : List Layer) (i0 k : ℕ), k < ls.length →
    List.find? (fun p => p.1 = EntryName.b (i0 + k)) (saveBlobs ls i0) =
      some (EntryName.b (i0 + k), Entry.blob ((ls.getD k dLayer).biases)) := by
  intro ls
  induction ls with
  | nil => intro i0 k h; simp at h
  | cons L rest ih =>
    intro i0 k hk
    cases k with
    | zero => simp [saveBlobs]
    | succ j =>
      have hj : j < rest.length := by simpa using hk
      have hne1 : EntryName.b i0 ≠ EntryName.b (i0 + (j + 1)) := by
        simp only [ne_eq, EntryName.b.injEq]
        omega
      have heq : i0 + (j + 1) = (i0 + 1) + j := by omega
      rw [saveBlobs, List.find?_cons_of_neg _ (by simp),
        List.find?_cons_of_neg _ (by simpa using hne1), heq, ih (i0 + 1) j hj,
        List.getD_cons_succ]

/-- The saved archive serves the metadata entry. -/
theorem archGet_save_meta (n : Network) :
    archGet (Save n) EntryName.meta = some (Entry.meta (mkOpts n)) := by
  simp [archGet, Save, List.find?_cons_of_pos]

/-- The saved archive serves each weight blob. -/
theorem archGet_save_w (n : Network) (k : ℕ) (hk : k < n.layers.length) :
    archGet (Save n) (EntryName.w k) =
      some (Entry.blob ((n.layers.getD k dLayer).weights)) := by
  have h0 : (0:ℕ) + k = k := by omega
  rw [archGet, Save, List.find?_cons_of_neg _ (by simp), ← h0,
    find?_saveBlobs_w n.layers 0 k hk]
  simp

/-- The saved archive serves each bias blob. -/
theorem archGet_save_b (n : Network) (k : ℕ) (hk : k < n.layers.length) :
    archGet (Save n) (EntryName.b k) =
      some (Entry.blob ((n.layers.getD k dLayer).biases)) := by
  have h0 : (0:ℕ) + k = k := by omega
  rw [archGet, Save, List.find?_cons_of_neg _ (by simp), ← h0,
    find?_saveBlobs_b n.layers 0 k hk]
  simp

/-- gatherSome succeeds with the pointwise values when every index
succeeds. -/
theorem gatherSome_eq_map {α : Type} (g : ℕ → Option α) (f : ℕ → α) :
    ∀ idx : List ℕ, (∀ i ∈ idx, g i = some (f i)) →
      gatherSome g idx = some (idx.map f) := by
  intro idx
  induction idx with
  | nil => intro _; rfl
  | cons i rest ih =>
    intro h
    rw [gatherSome, h i (by simp), ih (fun j hj => h j (by simp [hj]))]
    rfl

/-- gatherSome fails as soon as any index fails. -/
theorem gatherSome_eq_none {α : Type} (g : ℕ → Option α) :
    ∀ idx : List ℕ, (∃ i ∈ idx, g i = none) → gatherSome g idx = none := by
  intro idx
  induction idx with
  | nil => intro h; simp at h
  | cons i rest ih =>
    intro h
    obtain ⟨j, hj, hnone⟩ := h
    rw [List.mem_cons] at hj
    cases hj with
    | inl hji =>
      subst hji
      rw [gatherSome, hnone]
      rfl
    | inr hjr =>
      cases hgi : g i with
      | none => rw [gatherSome, hgi]; rfl
      | some x =>
        rw [gatherSome, hgi, ih ⟨j, hjr, hnone⟩]
        rfl

/-- A successful gatherSome has one value per index. -/
theorem gatherSome_length {α : Type} (g : ℕ → Option α) :
    ∀ (idx : List ℕ) (xs : List α), gatherSome g idx = some xs →
      xs.length = idx.length := by
  intro idx
  induction idx with
  | nil =>
    intro xs h
    rw [gatherSome] at h
    cases h
    rfl
  | cons i rest ih =>
    intro xs h
    rw [gatherSome] at h
    cases hgi : g i with
    | none => rw [hgi] at h; cases h
    | some x =>
      rw [hgi] at h
      cases hrest : gatherSome g rest with
      | none => rw [hrest] at h; cases h
      | some ys =>
        rw [hrest] at h
        cases h
        simp [ih ys hrest]

/-- Reading the indexed elements of a list back in order rebuilds it. -/
theorem map_getD_range {α : Type} (l : List α) (d : α) :
    (List.range l.length).map (fun i => l.getD i d) = l := by
  apply List.ext_get
  · simp
  · intro i h1 h2
    simp [List.getD_eq_getElem?_getD, List.getElem?_eq_getElem h2]

/-- gatherSome succeeds when every index succeeds. -/
theorem gatherSome_isSome {α : Type} (g : ℕ → Option α) :
    ∀ idx : List ℕ, (∀ i ∈ idx, (g i).isSome) → ∃ xs, gatherSome g idx = some xs := by
  intro idx
  induction idx with
  | nil => intro _; exact ⟨[], rfl⟩
  | cons i rest ih =>
    intro h
    obtain ⟨xs, hxs⟩ := ih (fun j hj => h j (by simp [hj]))
    cases hgi : g i with
    | none =>
      have hi := h i (by simp)
      rw [hgi] at hi
      simp at hi
    | some x =>
      refine ⟨x :: xs, ?_⟩
      rw [gatherSome]
      simp only [hgi, hxs, Option.bind_eq_bind, Option.some_bind]
      rfl

/-- With a nonempty hidden list, every layer index of the construction loop
succeeds. -/
theorem mkLayerAt_isSome (inputs outputs : ℕ) (hidden : List ℕ) (learn : Bool)
    (rng : ℕ → (ℕ → ℝ) × (ℕ → ℝ)) (hne : hidden ≠ []) (i : ℕ)
    (hi : i < hidden.length + 1) :
    (mkLayerAt inputs outputs hidden learn rng i).isSome := by
  have hpos : 0 < hidden.length := List.length_pos.mpr hne
  rcases Nat.eq_zero_or_pos i with h0 | hip
  · subst h0
    rw [mkLayerAt, if_pos rfl, List.get?_eq_get hpos]
    rfl
  · rcases eq_or_ne i hidden.length with hlen | hne2
    · rw [mkLayerAt, if_neg (by omega), if_pos hlen,
        List.get?_eq_get (by omega : i - 1 < hidden.length)]
      rfl
    · have hilt : i < hidden.length := by omega
      rw [mkLayerAt, if_neg (by omega), if_neg hne2]
      simp only [List.get?_eq_get hilt,
        List.get?_eq_get (show i - 1 < hidden.length by omega),
        Option.bind_eq_bind, Option.some_bind]
      rfl

/-- NewNetwork succeeds on a nonempty hidden list and returns
len(hidden)+1 layers. -/
theorem newNetwork_ok (inputs outputs : ℕ) (hidden : List ℕ) (learn : ℝ)
    (rng : ℕ → (ℕ → ℝ) × (ℕ → ℝ)) (hne : hidden ≠ []) :
    ∃ ls, NewNetwork inputs outputs hidden learn false rng =
        some ⟨inputs, outputs, hidden, ls, learn⟩ ∧
      ls.length = hidden.length + 1 := by
  obtain ⟨ls, hls⟩ := gatherSome_isSome (mkLayerAt inputs outputs hidden false rng)
    (List.range (hidden.length + 1))
    (fun i hi => mkLayerAt_isSome inputs outputs hidden false rng hne i (List.mem_range.mp hi))
  refine ⟨ls, ?_, ?_⟩
  · rw [NewNetwork, hls]
  · rw [gatherSome_length _ _ _ hls, List.length_range]

/-- Loading layer i back from the archive written by Save recovers exactly
the layer that was saved. -/
theorem loadLayerAt_save (n : Network) (i : ℕ) (hi : i < n.layers.length) :
    loadLayerAt (Save n) (mkOpts n) i = some (n.layers.getD i dLayer) := by
  have hw : (mkOpts n).WPaths.get? i = some (EntryName.w i) := by
    rw [mkOpts]
    simp [List.get?_map, List.get?_range, Network.h, hi]
  have hb : (mkOpts n).BPaths.get? i = some (EntryName.b i) := by
    rw [mkOpts]
    simp [List.get?_map, List.get?_range, Network.h, hi]
  rw [loadLayerAt]
  simp only [hw, hb, archGet_save_w n i hi, archGet_save_b n i hi, Entry.asBlob,
    Option.bind_eq_bind, Option.some_bind]
  rfl

/-- C5: Save followed by Load reconstructs the network exactly: same sizes,
hidden list and learning rate, the very same weight and bias matrices
(dimensions and every entry), and hence the same Calc output on every input.
The hypotheses are the shape facts every constructible network enjoys: a
nonempty hidden list (NewNetwork rejects the empty one, see C8) and one
layer more than hidden sizes. -/
theorem save_load_roundtrip (n : Network) (hne : n.hidden ≠ [])
    (hlen : n.layers.length = n.hidden.length + 1) :
    ∃ n', Load (Save n) = some n' ∧ n'.i = n.i ∧ n'.o = n.o ∧
      n'.hidden = n.hidden ∧ n'.learnRate = n.learnRate ∧ n'.layers = n.layers ∧
      ∀ data, Calc n' data = Calc n data := by
  obtain ⟨ls0, hnew, hlslen⟩ := newNetwork_ok n.i n.o n.hidden n.learnRate rng0 hne
  have hgather : gatherSome (loadLayerAt (Save n) (mkOpts n)) (List.range n.layers.length) =
      some n.layers := by
    rw [gatherSome_eq_map (loadLayerAt (Save n) (mkOpts n)) (fun i => n.layers.getD i dLayer)
      (List.range n.layers.length)
      (fun i hi => loadLayerAt_save n i (List.mem_range.mp hi)), map_getD_range]
  have hopts : NewNetwork (mkOpts n).I (mkOpts n).O (mkOpts n).H (mkOpts n).Learn false rng0 =
      some ⟨n.i, n.o, n.hidden, ls0, n.learnRate⟩ := hnew
  have hh : Network.h ⟨n.i, n.o, n.hidden, ls0, n.learnRate⟩ = n.layers.length := by
    rw [Network.h]
    show ls0.length = n.layers.length
    rw [hlslen, hlen]
  have hload : Load (Save n) = some n := by
    rw [Load]
    simp only [archGet_save_meta n, Entry.asMeta, Option.bind_eq_bind, Option.some_bind,
      hopts, hh, hgather]
    rfl
  exact ⟨n, hload, rfl, rfl, rfl, rfl, rfl, fun _ => rfl⟩

/-- Witness for C5 at the concrete scenario network. -/
theorem save_load_roundtrip_witness :
    ∃ n', Load (Save netC3) = some n' ∧ n'.i = netC3.i ∧ n'.o = netC3.o ∧
      n'.hidden = netC3.hidden ∧ n'.learnRate = netC3.learnRate ∧
      n'.layers = netC3.layers ∧
      ∀ data, Calc n' data = Calc netC3 data :=
  save_load_roundtrip netC3 (by simp [netC3]) rfl

/-- The per-layer load step fails when the archive lacks the blob entry one
of the metadata paths points at (regardless of how the other lookups go). -/
theorem loadLayerAt_none_of_missing (a : Archive) (opts : NetworkOptions) (k : ℕ)
    (nm : EntryName)
    (hnm : opts.WPaths.get? k = some nm ∨ opts.BPaths.get? k = some nm)
    (hmiss : archGet a nm = none) :
    loadLayerAt a opts k = none := by
  rw [loadLayerAt]
  cases hnm with
  | inl hw =>
    simp only [hw, hmiss, Option.bind_eq_bind, Option.some_bind, Option.none_bind]
  | inr hb =>
    cases hw : opts.WPaths.get? k with
    | none => rfl
    | some wn =>
      simp only [hw, Option.bind_eq_bind, Option.some_bind]
      cases he : archGet a wn with
      | none => rfl
      | some we =>
        simp only [Option.some_bind]
        cases hm : we.asBlob with
        | none => rfl
        | some wm =>
          simp only [hm, Option.some_bind, hb, hmiss, Option.none_bind]

/-- C6 (amended): Load fails (with an error or the modelled panic, and with
no network returned) whenever the archive is missing the metadata entry, or
whenever any per-layer weight or bias path recorded in the metadata is
missing from the archive (the loop index k ranges over the len(H)+1 layers
of the topology the metadata implies).  Load does NOT validate blob
dimensions: see the counterexample theorem for a wrongly-dimensioned blob
that is loaded rather than rejected. -/
theorem load_missing_entries :
    (∀ a : Archive, archGet a EntryName.meta = none → Load a = none) ∧
    (∀ (a : Archive) (opts : NetworkOptions) (k : ℕ) (nm : EntryName),
      archGet a EntryName.meta = some (Entry.meta opts) →
      k < opts.H.length + 1 →
      (opts.WPaths.get? k = some nm ∨ opts.BPaths.get? k = some nm) →
      archGet a nm = none →
      Load a = none) := by
  constructor
  · intro a hm
    rw [Load]
    simp only [hm, Option.bind_eq_bind, Option.none_bind]
  · intro a opts k nm hmeta hk hnm hmiss
    rw [Load]
    simp only [hmeta, Entry.asMeta, Option.bind_eq_bind, Option.some_bind]
    cases hnn : NewNetwork opts.I opts.O opts.H opts.Learn false rng0 with
    | none => rfl
    | some n0 =>
      simp only [Option.some_bind]
      have hlen : n0.h = opts.H.length + 1 := by
        rw [NewNetwork] at hnn
        cases hg : gatherSome (mkLayerAt opts.I opts.O opts.H false rng0)
            (List.range (opts.H.length + 1)) with
        | none => rw [hg] at hnn; cases hnn
        | some ls =>
          rw [hg] at hnn
          cases hnn
          rw [Network.h]
          show ls.length = opts.H.length + 1
          rw [gatherSome_length _ _ _ hg, List.length_range]
      have hg0 : gatherSome (loadLayerAt a opts) (List.range n0.h) = none := by
        apply gatherSome_eq_none
        exact ⟨k, List.mem_range.mpr (by rw [hlen]; exact hk),
          loadLayerAt_none_of_missing a opts k nm hnm hmiss⟩
      simp only [hg0, Option.none_bind]

/-- Witness for C6's amended theorem: the empty archive has no metadata
entry, and an archive holding only metadata is missing its first weight
blob; Load rejects both. -/
theorem load_missing_entries_witness :
    Load ([] : Archive) = none ∧
    Load [(EntryName.meta, Entry.meta
      ⟨1, 1, [1], 0, [EntryName.w 0, EntryName.w 1], [EntryName.b 0, EntryName.b 1]⟩)]
      = none :=
  ⟨load_missing_entries.1 [] rfl,
   load_missing_entries.2 _
     ⟨1, 1, [1], 0, [EntryName.w 0, EntryName.w 1], [EntryName.b 0, EntryName.b 1]⟩
     0 (EntryName.w 0) rfl (by norm_num) (Or.inl rfl) rfl⟩

/-- An archive whose metadata describes the 1-(1)-1 topology but whose first
weight blob decodes to a 3 x 3 matrix. -/
def cexArch : Archive :=
  [(EntryName.meta, Entry.meta
      ⟨1, 1, [1], 0, [EntryName.w 0, EntryName.w 1], [EntryName.b 0, EntryName.b 1]⟩),
   (EntryName.w 0, Entry.blob (matZero 3 3)),
   (EntryName.b 0, Entry.blob (matZero 1 1)),
   (EntryName.w 1, Entry.blob (matZero 1 1)),
   (EntryName.b 1, Entry.blob (matZero 1 1))]

/-- Counterexample for C6 as frozen: Load accepts the archive whose first
weight blob is 3 x 3 although the metadata topology (hiddenSizes [1], input
size 1) requires a 1 x 1 first weight matrix — the Go code Resets each
matrix before unmarshalling, so the blob's own dimensions are installed
without any check against the topology, and a network violating the
invariant is returned instead of an error. -/
theorem load_accepts_mismatched_dims :
    ∃ n, Load cexArch = some n ∧ n.i = 1 ∧ n.hidden = [1] ∧
      (n.layers.getD 0 dLayer).weights.rows = 3 ∧
      (n.layers.getD 0 dLayer).weights.cols = 3 :=
  ⟨_, rfl, rfl, rfl, rfl, rfl⟩

end NN

end
